import Mathlib

/-!
Verification development for the Code-Dependency-Visualizer backend
(`backend/app/routes/analyze.py` and `backend/app/utils/file_handler.py`).

The Python source is shallowly embedded: pure string manipulation is
modelled on `List Char`, files are records carrying their relative path and
an optional content (`none` models an unreadable file), the regex-based
extractors are modelled as executable scanners that implement the concrete
patterns used in the source, and the graph is an association list keyed by
node id resp. by the (source, target) pair, mirroring networkx's dict-based
node/edge stores (insert-or-overwrite semantics).
-/

namespace DepViz

/-! ## Basic path helpers (posixpath semantics, as used on the server) -/

/-- Characters matched by the regex class `\s` (ASCII range). -/
def isPySpace (c : Char) : Bool :=
  c = ' ' || c = '\t' || c = '\n' || c = '\r' || c = '\x0b' || c = '\x0c'

/-- Characters matched by the regex class `[\w.]` (ASCII range). -/
def isWordDotChar (c : Char) : Bool :=
  c.isAlphanum || c = '_' || c = '.'

/-- Model of `os.path.basename` on a posix path: the part after the last slash. -/
def basenameL (l : List Char) : List Char :=
  (l.reverse.takeWhile (fun c => c ≠ '/')).reverse

/-- Model of `os.path.basename` lifted to `String`. -/
def basename (s : String) : String :=
  ⟨basenameL s.data⟩

/-- The extension part of `os.path.splitext` applied to a basename:
the suffix from the last dot on, provided some non-dot character precedes
that dot inside the basename (leading dots never start an extension). -/
def splitextExtL (b : List Char) : List Char :=
  match b.reverse.dropWhile (fun c => c ≠ '.') with
  | [] => []
  | _ :: preRev =>
    if preRev.any (fun c => c ≠ '.') then
      '.' :: (b.reverse.takeWhile (fun c => c ≠ '.')).reverse
    else []

/-- Model of `str.startswith`, character-list based. -/
def startsWithB (s pre : String) : Bool :=
  s.data.take pre.data.length == pre.data

/-- Model of `str.split(sep)` for a one-character separator, accumulator based:
`"".split(".")` is `[""]`, separators at the ends produce empty pieces. -/
def splitAux (sep : Char) : List Char → List Char → List (List Char)
  | [], cur => [cur.reverse]
  | c :: rest, cur =>
    if c = sep then cur.reverse :: splitAux sep rest []
    else splitAux sep rest (c :: cur)

/-- Model of `str.split(sep)` lifted to `String`. -/
def splitOnChar (sep : Char) (s : String) : List String :=
  (splitAux sep s.data []).map (fun l => ⟨l⟩)

/-- Model of `os.path.splitext(p)[1].lower()` for a path `p` (`str.lower` maps
`Char.toLower` over the characters). -/
def extOf (p : String) : String :=
  ⟨(splitextExtL (basenameL p.data)).map Char.toLower⟩

/-- Model of `dep_name = os.path.basename(dep).split(".")[0]`: the basename
truncated at its first dot. -/
def truncName (dep : String) : String :=
  ⟨(basenameL dep.data).takeWhile (fun c => c ≠ '.')⟩

/-- Supported extensions by type (`FILE_TYPES` in analyze.py). -/
def FILE_TYPES : List (String × List String) :=
  [("python", [".py"]),
   ("cpp", [".c", ".cpp", ".h", ".hpp"]),
   ("java", [".java"]),
   ("web", [".html", ".htm", ".css", ".js", ".jsx", ".ts", ".tsx"])]

/-- Model of `get_file_type`: map a file's extension to its category, `"unknown"`
when no category lists the extension (dict iteration is insertion order). -/
def get_file_type (fpath : String) : String :=
  match FILE_TYPES.find? (fun kv => kv.2.contains (extOf fpath)) with
  | some kv => kv.1
  | none => "unknown"

/-! ## Regex models

Each `re.findall` call of `extract_dependencies` is modelled by a scanner
over the character list that implements the given pattern with Python's
leftmost, non-overlapping match semantics and the greedy/lazy preferences
of the concrete pattern. -/

/-- One attempt of `^\s*(?:from\s+([\w\.]+)|import\s+([\w\.]+))`
(multi-line mode) at a position known to be a line start.  Returns the
captured group and the characters following the match.  The classes `\s`
and `[\w.]` are disjoint from the required literal characters, so the
greedy runs are exact and no backtracking is needed. -/
def pyTryMatch (cs : List Char) : Option (List Char × List Char) :=
  let rest := cs.dropWhile isPySpace
  let tryKw : List Char → Option (List Char × List Char) := fun kw =>
    if rest.take kw.length = kw then
      let afterKw := rest.drop kw.length
      let sp := afterKw.takeWhile isPySpace
      if sp.isEmpty then none
      else
        let rest2 := afterKw.drop sp.length
        let cap := rest2.takeWhile isWordDotChar
        if cap.isEmpty then none else some (cap, rest2.drop cap.length)
    else none
  match tryKw "from".data with
  | some r => some r
  | none => tryKw "import".data

/-- Scanner for the anchored python-import pattern: attempts are only made
at line starts (the pattern begins with `^`); after a match, scanning
continues right after the matched text. -/
def pyScan : Nat → List Char → Bool → List (List Char)
  | 0, _, _ => []
  | _ + 1, [], _ => []
  | fuel + 1, c :: cs, atStart =>
    if atStart then
      match pyTryMatch (c :: cs) with
      | some (cap, rest) => cap :: pyScan fuel rest false
      | none => pyScan fuel cs (c = '\n')
    else pyScan fuel cs (c = '\n')

/-- Model of `re.findall(r'^\s*(?:from\s+([\w\.]+)|import\s+([\w\.]+))', content,
re.MULTILINE)` followed by `fr or im` (the captured dotted path). -/
def findallPython (content : String) : List String :=
  (pyScan (content.data.length + 1) content.data true).map (fun l => ⟨l⟩)

/-- Generic unanchored `findall` driver: attempt the pattern at every
position, emit the capture, continue after the match (our patterns never
match the empty string). -/
def scanAll (tryM : List Char → Option (List Char × List Char)) :
    Nat → List Char → List (List Char)
  | 0, _ => []
  | _ + 1, [] => []
  | fuel + 1, c :: cs =>
    match tryM (c :: cs) with
    | some (cap, rest) => cap :: scanAll tryM fuel rest
    | none => scanAll tryM fuel cs

/-- One attempt of `#include\s+[<"]([\w\.]+)[>"]` (either bracket may open
and either may close, exactly as the character classes allow). -/
def cppTryMatch (cs : List Char) : Option (List Char × List Char) :=
  if cs.take 8 = "#include".data then
    let r := cs.drop 8
    let sp := r.takeWhile isPySpace
    if sp.isEmpty then none
    else
      match r.drop sp.length with
      | b :: r2 =>
        if b = '<' || b = '"' then
          let cap := r2.takeWhile isWordDotChar
          if cap.isEmpty then none
          else
            match r2.drop cap.length with
            | e :: r3 => if e = '>' || e = '"' then some (cap, r3) else none
            | [] => none
        else none
      | [] => none
  else none

/-- Model of `re.findall(r'#include\s+[<"]([\w\.]+)[>"]', content)`. -/
def findallCpp (content : String) : List String :=
  (scanAll cppTryMatch (content.data.length + 1) content.data).map (fun l => ⟨l⟩)

/-- One attempt of `import\s+([\w\.]+);`. -/
def javaTryMatch (cs : List Char) : Option (List Char × List Char) :=
  if cs.take 6 = "import".data then
    let r := cs.drop 6
    let sp := r.takeWhile isPySpace
    if sp.isEmpty then none
    else
      let r2 := r.drop sp.length
      let cap := r2.takeWhile isWordDotChar
      if cap.isEmpty then none
      else
        match r2.drop cap.length with
        | ';' :: r3 => some (cap, r3)
        | _ => none
  else none

/-- Model of `re.findall(r'import\s+([\w\.]+);', content)`. -/
def findallJava (content : String) : List String :=
  (scanAll javaTryMatch (content.data.length + 1) content.data).map (fun l => ⟨l⟩)

def isQuote (c : Char) : Bool := c = '\'' || c = '"'

/-- The lazy tail of the patterns: a capture `(.*?)` up to the first quote
character; `.` does not match a newline, so hitting a newline first fails. -/
def lazyToQuote (cs : List Char) : Option (List Char × List Char) :=
  let cap := cs.takeWhile (fun c => !isQuote c && c ≠ '\n')
  match cs.drop cap.length with
  | q :: r => if isQuote q then some (cap, r) else none
  | [] => none

/-- The character class of the optional clause of the JS import pattern. -/
def isJsClauseChar (c : Char) : Bool :=
  c.isAlphanum || c = '_' || c = '{' || c = '}' || c = ',' || c = '*' || isPySpace c

/-- One attempt of the ES-import pattern
`import\s+(?:[\w{}\s,*]+from\s+)?["\'](.*?)["\']`, implementing the
engine's choice order: longest `\s+` run first, optional clause present
before absent, longest class run first inside the clause. -/
def jsImportTryMatch (cs : List Char) : Option (List Char × List Char) :=
  if cs.take 6 = "import".data then
    let r := cs.drop 6
    let wsMax := (r.takeWhile isPySpace).length
    if wsMax = 0 then none
    else
      (List.range wsMax).findSome? (fun d =>
        let q0 := r.drop (wsMax - d)
        let present :=
          let nMax := (q0.takeWhile isJsClauseChar).length
          (List.range nMax).findSome? (fun d2 =>
            let r2 := q0.drop (nMax - d2)
            if r2.take 4 = "from".data then
              let r3 := r2.drop 4
              let k := (r3.takeWhile isPySpace).length
              if k = 0 then none
              else
                match r3.drop k with
                | q :: r4 => if isQuote q then lazyToQuote r4 else none
                | [] => none
            else none)
        match present with
        | some res => some res
        | none =>
          match q0 with
          | q :: r4 => if isQuote q then lazyToQuote r4 else none
          | [] => none)
  else none

/-- Model of `re.findall(r'import\s+(?:[\w{}\s,*]+from\s+)?["\'](.*?)["\']', content)`. -/
def findallJsImports (content : String) : List String :=
  (scanAll jsImportTryMatch (content.data.length + 1) content.data).map (fun l => ⟨l⟩)

/-- Capture of `require\(["\'](.*?)["\']\)`: lazily extend the capture
until a quote immediately followed by a closing parenthesis. -/
def reqCapture : List Char → List Char → Option (List Char × List Char)
  | acc, q :: rest =>
    if isQuote q && rest.head? = some ')' then some (acc.reverse, rest.drop 1)
    else if q = '\n' then none
    else reqCapture (q :: acc) rest
  | _, [] => none

/-- One attempt of `require\(["\'](.*?)["\']\)`. -/
def jsRequireTryMatch (cs : List Char) : Option (List Char × List Char) :=
  if cs.take 8 = "require(".data then
    match cs.drop 8 with
    | q :: r => if isQuote q then reqCapture [] r else none
    | [] => none
  else none

/-- Model of `re.findall(r'require\(["\'](.*?)["\']\)', content)`. -/
def findallJsRequires (content : String) : List String :=
  (scanAll jsRequireTryMatch (content.data.length + 1) content.data).map (fun l => ⟨l⟩)

/-- Case-insensitive literal prefix test (`re.IGNORECASE`); the pattern
argument is given in lower case. -/
def ciStarts (pat : List Char) (cs : List Char) : Bool :=
  (cs.take pat.length).map Char.toLower = pat

/-- The lazy `.*?attr=["\'](.*?)["\']` part of the HTML patterns: walk
forward (never across a newline, `.` does not match one) to the first
position where the attribute literal, an opening quote and a complete
capture all succeed. -/
def htmlSeek (attr : List Char) : List Char → Option (List Char × List Char)
  | [] => none
  | c :: cs =>
    let here :=
      if ciStarts attr (c :: cs) then
        match (c :: cs).drop attr.length with
        | q :: r => if isQuote q then lazyToQuote r else none
        | [] => none
      else none
    match here with
    | some res => some res
    | none => if c = '\n' then none else htmlSeek attr cs

/-- One attempt of `<tag\s+.*?attr=["\'](.*?)["\']` with `re.IGNORECASE`
(`tag` and `attr` given in lower case, e.g. `<script` and `src=`). -/
def htmlTryMatch (tag : List Char) (attr : List Char) (cs : List Char) :
    Option (List Char × List Char) :=
  if ciStarts tag cs then
    let r := cs.drop tag.length
    let wsMax := (r.takeWhile isPySpace).length
    if wsMax = 0 then none
    else (List.range wsMax).findSome? (fun d => htmlSeek attr (r.drop (wsMax - d)))
  else none

/-- Model of `re.findall(r'<script\s+.*?src=["\'](.*?)["\']', content, re.IGNORECASE)`. -/
def findallHtmlScripts (content : String) : List String :=
  (scanAll (htmlTryMatch "<script".data "src=".data)
    (content.data.length + 1) content.data).map (fun l => ⟨l⟩)

/-- Model of `re.findall(r'<link\s+.*?href=["\'](.*?)["\']', content, re.IGNORECASE)`. -/
def findallHtmlLinks (content : String) : List String :=
  (scanAll (htmlTryMatch "<link".data "href=".data)
    (content.data.length + 1) content.data).map (fun l => ⟨l⟩)

/-! ## extract_dependencies (analyze.py lines 53-79) -/

/-- Exceptions of the embedding. -/
inductive PyErr where
  | ioError
deriving DecidableEq, Repr

/-- The body of the `try` block of `extract_dependencies`: reading an
unreadable file raises, otherwise the per-category `re.findall` results
are accumulated.  `content?` is the file's content, `none` when the file
cannot be read or decoded. -/
def extract_dependencies_try (content? : Option String) (ftype : String) :
    Except PyErr (List String) :=
  match content? with
  | none => Except.error PyErr.ioError
  | some content =>
    Except.ok
      (if ftype = "python" then findallPython content
       else if ftype = "cpp" || ftype = "c" then findallCpp content
       else if ftype = "java" then findallJava content
       else if ftype = "web" || ftype = "jsx" || ftype = "tsx" || ftype = "ts"
            || ftype = "js" then
         findallJsImports content ++ findallJsRequires content
           ++ findallHtmlScripts content ++ findallHtmlLinks content
       else [])

/-- Model of `extract_dependencies`: the whole body is wrapped in
`try ... except Exception: pass` and the function ends with `return deps`,
so an exception yields the dependencies accumulated so far — the empty
list, since `open` is the first statement of the `try` block.  The result
lives in `Option` because the caller tests the returned Python value
against `None`; the source always returns the list itself. -/
def extract_dependencies (content? : Option String) (ftype : String) :
    Option (List String) :=
  match extract_dependencies_try content? ftype with
  | Except.ok deps => some deps
  | Except.error _ => some []

/-! ## The dependency graph (networkx DiGraph model)

Nodes live in a dict keyed by id, edges in a dict keyed by the
(source, target) pair; re-adding an existing key overwrites the attributes
and keeps the key's position, a fresh key is appended. -/

structure NodeAttr where
  type : String
  label : String
deriving DecidableEq, Repr

structure EdgeAttr where
  kind : String
  external : Bool
deriving DecidableEq, Repr

structure Graph where
  nodes : List (String × NodeAttr)
  edges : List ((String × String) × EdgeAttr)
deriving DecidableEq, Repr

def emptyGraph : Graph := ⟨[], []⟩

/-- Model of `g.add_node(id, **attr)`. -/
def addNode (g : Graph) (id : String) (a : NodeAttr) : Graph :=
  if g.nodes.any (fun p => p.1 == id) then
    { g with nodes := g.nodes.map (fun p => if p.1 == id then (id, a) else p) }
  else
    { g with nodes := g.nodes ++ [(id, a)] }

/-- Model of `g.add_edge(u, v, **attr)` (both endpoints are always added as nodes
first by the analysis code, so only the edge store is modelled here). -/
def addEdge (g : Graph) (key : String × String) (a : EdgeAttr) : Graph :=
  if g.edges.any (fun e => e.1 == key) then
    { g with edges := g.edges.map (fun e => if e.1 == key then (key, a) else e) }
  else
    { g with edges := g.edges ++ [(key, a)] }

def nodeIds (g : Graph) : List String := g.nodes.map Prod.fst

/-- Model of `g.subgraph([n for n, d in g.nodes(data=True) if d.get("type") != "external"])`:
the subgraph induced by the non-external nodes. -/
def internalSub (g : Graph) : Graph :=
  let kept := g.nodes.filter (fun p => p.2.type != "external")
  { nodes := kept,
    edges := g.edges.filter (fun e =>
      (kept.map Prod.fst).contains e.1.1 && (kept.map Prod.fst).contains e.1.2) }

/-! ## Cycle enumeration

Modelled from the spec: `networkx.simple_cycles` — the repository calls
this library routine, whose contract is to enumerate the elementary
circuits (simple directed cycles, no node repeated except for the closing
edge) of the directed graph, in an order of its own choosing.  The model
below enumerates every elementary circuit by filtering all duplicate-free
node sequences; all properties proved about it are insensitive to the
enumeration order. -/

def hasEdge (g : Graph) (u v : String) : Bool :=
  g.edges.any (fun e => e.1 == (u, v))

/-- The consecutive edges of a candidate cycle, wrapping back to `first`. -/
def chainB (g : Graph) (first : String) : List String → Bool
  | [] => true
  | [v] => hasEdge g v first
  | v :: w :: rest => hasEdge g v w && chainB g first (w :: rest)

/-- The predicate that `c` is an elementary circuit of `g`: nonempty, duplicate-free, each
node has an edge to the next and the last closes back to the first. -/
def isCirc (g : Graph) (c : List String) : Bool :=
  match c with
  | [] => false
  | v :: rest => decide c.Nodup && chainB g v (v :: rest)

/-- All duplicate-free sequences over the graph's node ids. -/
def circCandidates (g : Graph) : List (List String) :=
  ((nodeIds g).dedup.sublists).flatMap List.permutations'

/-- Model of `nx.simple_cycles g`: every elementary circuit of `g`. -/
def simpleCyclesModel (g : Graph) : List (List String) :=
  (circCandidates g).filter (fun c => isCirc g c)

/-- analyze.py lines 147-156: enumerate the cycles of the internal-only
subgraph, stopping once 25 have been collected. -/
def findCycles (g : Graph) : List (List String) :=
  (simpleCyclesModel (internalSub g)).take 25

/-! ## The analysis pipeline (analyze.py lines 90-170) -/

/-- A discovered source file: its path relative to the extraction
directory (slash-separated, as produced by `os.path.relpath` plus the
backslash replacement) and its content, `none` when unreadable. -/
structure SrcFile where
  path : String
  content? : Option String
deriving DecidableEq, Repr

structure RNode where
  id : String
  label : String
  type : String
deriving DecidableEq, Repr

structure REdge where
  id : String
  source : String
  target : String
  kind : String
  external : Bool
deriving DecidableEq, Repr

structure RMeta where
  internal_files : Nat
  external_pkgs : Nat
  skipped_files : Nat
  cycles : List (List String)
  duration_ms : Nat
deriving DecidableEq, Repr

structure AnalyzeResult where
  nodes : List RNode
  edges : List REdge
  meta : RMeta
deriving DecidableEq, Repr

/-- The mutable state of the graph-building loop. -/
structure AState where
  g : Graph
  internal_nodes : List String
  external_nodes : List String
  skipped : Nat
deriving DecidableEq, Repr

/-- Insertion into a Python `set`, modelled as an append-if-absent list. -/
def insertSet (l : List String) (x : String) : List String :=
  if l.contains x then l else l ++ [x]

/-- analyze.py lines 131-137: the resolution of one raw dependency string
against the discovered files.  `some cf` means internal with target `cf`
(the first file, in discovery order, whose basename equals the
dependency's basename); `none` means no target was found and the
dependency becomes external. -/
def resolveDep (dep : String) (code_files : List String) : Option String :=
  if startsWithB dep "." || (code_files.map basename).contains (basename dep) then
    code_files.find? (fun cf => basename cf == basename dep)
  else none

/-- analyze.py lines 128-145: process one raw dependency string of the
file `rel`. -/
def processDep (files : List SrcFile) (rel : String) (st : AState)
    (dep : String) : AState :=
  if dep = "" then st
  else
    match resolveDep dep (files.map (fun f => f.path)) with
    | some target_file =>
      let g1 := addNode st.g target_file
        ⟨get_file_type target_file, basename target_file⟩
      let g2 := addEdge g1 (rel, target_file) ⟨"import", false⟩
      { st with g := g2 }
    | none =>
      let dep_name := truncName dep
      let g1 := addNode st.g dep_name ⟨"external", dep_name⟩
      let g2 := addEdge g1 (rel, dep_name) ⟨"import", true⟩
      { st with g := g2, external_nodes := insertSet st.external_nodes dep_name }

/-- analyze.py lines 117-145: process one discovered file — register its
node, count it as internal, extract its dependencies (a `None` result
would be counted as skipped) and process each dependency. -/
def processFile (files : List SrcFile) (st : AState) (f : SrcFile) : AState :=
  let rel := f.path
  let ftype := get_file_type rel
  let st1 : AState :=
    { st with g := addNode st.g rel ⟨ftype, basename rel⟩,
              internal_nodes := insertSet st.internal_nodes rel }
  match extract_dependencies f.content? ftype with
  | none => { st1 with skipped := st1.skipped + 1 }
  | some deps => deps.foldl (processDep files rel) st1

/-- analyze.py lines 104-170: the whole analysis over the discovered
files (wall-clock duration is not modelled and reported as 0). -/
def analyze_graph (files : List SrcFile) : AnalyzeResult :=
  if files.isEmpty then ⟨[], [], ⟨0, 0, 0, [], 0⟩⟩
  else
    let st := files.foldl (processFile files) ⟨emptyGraph, [], [], 0⟩
    { nodes := st.g.nodes.map (fun p => ⟨p.1, p.2.label, p.2.type⟩),
      edges := st.g.edges.map (fun e =>
        ⟨e.1.1 ++ "->" ++ e.1.2, e.1.1, e.1.2, e.2.kind, e.2.external⟩),
      meta := ⟨st.internal_nodes.length, st.external_nodes.length, st.skipped,
               findCycles st.g, 0⟩ }

/-! ## Safe zip extraction (analyze.py lines 24-40) -/

def MAX_FILES : Nat := 5000
def MAX_TOTAL_BYTES : Nat := 50 * 1024 * 1024

structure ZipEntry where
  filename : String
  file_size : Nat
  external_attr : Nat
deriving DecidableEq, Repr

/-- Model of `posixpath.normpath`. -/
def normpath (p : String) : String :=
  if p = "" then "."
  else
    let initialSlashes : Nat :=
      if startsWithB p "/" then
        (if startsWithB p "//" && !(startsWithB p "///") then 2 else 1)
      else 0
    let newComps := (splitOnChar '/' p).foldl (fun acc comp =>
      if comp = "" || comp = "." then acc
      else if comp ≠ ".." || (initialSlashes = 0 && acc = [])
              || (acc ≠ [] && acc.getLast? = some "..") then acc ++ [comp]
      else acc.dropLast) []
    let res := (⟨List.replicate initialSlashes '/'⟩ : String)
      ++ String.intercalate "/" newComps
    if res = "" then "." else res

/-- The rejection test of lines 34-36: the normalized entry path starts
with `..` or is absolute (`os.path.isabs`: starts with a slash). -/
def badPath (name : String) : Bool :=
  startsWithB (normpath name) ".." || startsWithB (normpath name) "/"

/-- Lines 37-39: unix symlink entries are skipped. -/
def isSymlinkEntry (e : ZipEntry) : Bool :=
  ((e.external_attr >>> 16) &&& 0o120000) == 0o120000

inductive ZipErr where
  | tooManyFiles
  | tooLarge
  | invalidPath
deriving DecidableEq, Repr

/-- The per-entry extraction loop (lines 33-40).  The first component
accumulates the names written to disk, in extraction order; the second is
the raised error, if any. -/
def extractLoop : List ZipEntry → List String → List String × Option ZipErr
  | [], written => (written, none)
  | e :: rest, written =>
    if badPath e.filename then (written, some ZipErr.invalidPath)
    else if isSymlinkEntry e then extractLoop rest written
    else extractLoop rest (written ++ [e.filename])

/-- Model of `_safe_extract_zip`: entry-count and aggregate-size checks happen
before the extraction loop. -/
def safeExtractZip (entries : List ZipEntry) : List String × Option ZipErr :=
  if entries.length > MAX_FILES then ([], some ZipErr.tooManyFiles)
  else if (entries.map (fun e => e.file_size)).sum > MAX_TOTAL_BYTES then
    ([], some ZipErr.tooLarge)
  else extractLoop entries []

/-! ## The deep Python extractor (file_handler.py lines 69-103)

The Python `ast` parser is the language's own parser; its output is
modelled as a tree of statements, `none` standing for a `SyntaxError`.
Only the constructors `extract_imports` inspects are distinguished. -/

inductive PyStmt where
  /-- An `ast.Import` with its alias names. -/
  | imp (names : List String)
  /-- An `ast.ImportFrom` with its module (None for `from . import x`) and
  its relative level. -/
  | impFrom (module? : Option String) (level : Nat)
  /-- Any other node, with the nested statements `ast.walk` descends into. -/
  | other (children : List PyStmt)

mutual

/-- The names `extract_imports` adds for one AST node. -/
def stmtImports (current_module : String) : PyStmt → List String
  | PyStmt.imp names => names.filter (fun n => n ≠ "")
  | PyStmt.impFrom module? level =>
    let base := module?.getD ""
    if level ≠ 0 then
      let cur_parts := splitOnChar '.' current_module
      let up := if level ≤ cur_parts.length then
          cur_parts.take (cur_parts.length - level)
        else []
      let full := if base ≠ "" then String.intercalate "." (up ++ [base])
        else String.intercalate "." up
      if full ≠ "" then [full] else []
    else if base ≠ "" then [base] else []
  | PyStmt.other children => stmtsImports current_module children

/-- The function `stmtImports` applied over a list of statements. -/
def stmtsImports (current_module : String) : List PyStmt → List String
  | [] => []
  | s :: rest => stmtImports current_module s ++ stmtsImports current_module rest

end

/-- Code-point-wise lexicographic comparison of character lists: the
order `sorted` uses on Python strings. -/
def leC : List Char → List Char → Bool
  | [], _ => true
  | _ :: _, [] => false
  | a :: as, b :: bs => if a.toNat = b.toNat then leC as bs else decide (a.toNat < b.toNat)

/-- Python's `<=` on strings. -/
def strLe (a b : String) : Prop := leC a.data b.data = true

instance strLe.decR : DecidableRel strLe := fun a b => by
  unfold strLe; infer_instance

/-- Model of `extract_imports`: collect the imported module names into a set and
return them sorted; a file with a syntax error yields the empty list. -/
def extract_imports (parsed? : Option (List PyStmt)) (current_module : String) :
    List String :=
  match parsed? with
  | none => []
  | some stmts =>
    List.insertionSort strLe ((stmtsImports current_module stmts).dedup)

/-! ## Spec-side definitions, for comparison with the code

These two definitions follow the words of the specification (§4.3 and §6)
rather than the source; they exist only to be compared against the
behaviour of the embedded code. -/

/-- Modelled from the spec: a path's final segment stripped of its
extension (the stem of `os.path.splitext`). -/
def specStem (p : String) : String :=
  ⟨(basenameL p.data).take
    ((basenameL p.data).length - (splitextExtL (basenameL p.data)).length)⟩

/-- Modelled from the spec (§4.3, policy step 1): a dependency is internal
when it begins with a relative-path marker or its stripped final segment
equals the stripped final segment of some discovered file. -/
def specInternalCond (dep : String) (files : List String) : Bool :=
  startsWithB dep "." || files.any (fun cf => specStem cf == specStem dep)

/-- Modelled from the spec (§6 result wire shape): the edge id format
given there, source and target joined by the four characters between the
placeholders. -/
def specEdgeId (source target : String) : String :=
  source ++ "->->" ++ target

/-- A graph with no elementary circuit at all. -/
def AcyclicG (g : Graph) : Prop :=
  ∀ c : List String, isCirc g c = false

/-- No dot occurs in the string: the shape of every external node id, and
of no discovered file's path. -/
def noDot (s : String) : Bool :=
  s.data.all (fun c => c ≠ '.')

/-! # Theorems -/

/-! ## Shared helper lemmas -/

theorem extract_dependencies_eq_some (content? : Option String) (ftype : String) :
    ∃ deps, extract_dependencies content? ftype = some deps := by
  cases content? with
  | none => exact ⟨[], rfl⟩
  | some s => exact ⟨_, rfl⟩

theorem processDep_skipped (files : List SrcFile) (rel : String) (st : AState)
    (dep : String) : (processDep files rel st dep).skipped = st.skipped := by
  unfold processDep
  split
  · rfl
  · cases resolveDep dep (files.map (fun f => f.path)) <;> rfl

theorem foldl_processDep_skipped (files : List SrcFile) (rel : String)
    (deps : List String) (st : AState) :
    (deps.foldl (processDep files rel) st).skipped = st.skipped := by
  induction deps generalizing st with
  | nil => rfl
  | cons d rest ih => rw [List.foldl_cons, ih, processDep_skipped]

theorem processFile_skipped (files : List SrcFile) (st : AState) (f : SrcFile) :
    (processFile files st f).skipped = st.skipped := by
  unfold processFile
  cases f.content? with
  | none => exact foldl_processDep_skipped _ _ _ _
  | some s => exact foldl_processDep_skipped _ _ _ _

theorem foldl_processFile_skipped (files rest : List SrcFile) (st : AState) :
    (rest.foldl (processFile files) st).skipped = st.skipped := by
  induction rest generalizing st with
  | nil => rfl
  | cons f fs ih => rw [List.foldl_cons, ih, processFile_skipped]

/-! ## C1 — resolution policy -/

/-- C1 (counterexample): the dependency string `.b`, with `b.py` among the
discovered files, satisfies the claim's internal condition (it begins with
a relative-path marker, and its stripped final segment is also claimed to
match), yet the code resolves no internal target for it; likewise the
dependency `b` matches `b.py` after stripping extensions, yet the code
resolves no internal target. -/
theorem C1_counterexample :
    specInternalCond ".b" ["b.py"] = true ∧ resolveDep ".b" ["b.py"] = none
      ∧ specInternalCond "b" ["b.py"] = true ∧ resolveDep "b" ["b.py"] = none := by
  decide

/-- C1 (amended): a raw dependency is treated as internal exactly when its
final path segment — extension included, compared verbatim — equals the
final path segment of some discovered file, in which case the target is
the first such file in discovery order; the relative-path marker and
extension stripping of the claim play no role. -/
theorem C1_amended : ∀ (dep : String) (code_files : List String),
    resolveDep dep code_files
      = code_files.find? (fun cf => basename cf == basename dep) := by
  intro dep code_files
  unfold resolveDep
  split
  · rfl
  · rename_i h
    rw [eq_comm, List.find?_eq_none]
    intro cf hcf
    simp only [Bool.or_eq_true, not_or, List.contains_iff_exists_mem_beq] at h
    intro hbeq
    exact h.2 ⟨basename cf, List.mem_map_of_mem basename hcf,
      by simpa [beq_iff_eq] using (beq_iff_eq.mp hbeq).symm⟩

/-! ## C2 — the a.py / b.py scenario -/

/-- C2 (code evaluated at the failing input): for the archive containing
`a.py` (importing `os` and `.b`) and `b.py`, the result does contain the
external edge to `os`, but contains no edge targeting `b.py` at all — the
relative import `.b` instead produces an external edge to a node whose id
is the empty string. -/
theorem C2_failing_scenario :
    ((analyze_graph [⟨"a.py", some "import os\nfrom .b import x"⟩,
        ⟨"b.py", some ""⟩]).edges.any
      (fun e => e.source == "a.py" && e.target == "os" && e.external)) = true
    ∧ ((analyze_graph [⟨"a.py", some "import os\nfrom .b import x"⟩,
        ⟨"b.py", some ""⟩]).edges.any
      (fun e => e.target == "b.py")) = false
    ∧ ((analyze_graph [⟨"a.py", some "import os\nfrom .b import x"⟩,
        ⟨"b.py", some ""⟩]).edges.any
      (fun e => e.source == "a.py" && e.target == "" && e.external)) = true := by
  decide

/-! ## C3 — skipped-files accounting -/

/-- C3 (code evaluated at the failing input, plus the general fact): an
unreadable file yields no dependencies and analysis continues (its node is
still registered), but the skipped-files counter of the result is always
0 — `extract_dependencies` always returns a list, so the caller's
`deps is None` check never fires. -/
theorem C3_skipped_files :
    (∀ files : List SrcFile, (analyze_graph files).meta.skipped_files = 0)
    ∧ (analyze_graph [⟨"a.py", none⟩]).meta.skipped_files = 0
    ∧ (analyze_graph [⟨"a.py", none⟩]).nodes = [⟨"a.py", "a.py", "python"⟩]
    ∧ extract_dependencies none "python" = some [] := by
  refine ⟨?_, by decide, by decide, rfl⟩
  intro files
  unfold analyze_graph
  split
  · rfl
  · simpa using foldl_processFile_skipped files files _

/-! ## C7 — entry-count and size limits -/

/-- C7: the entry-count and aggregate-size checks run before the
extraction loop, so an archive over either limit is rejected with no file
written to disk. -/
theorem C7_limits_before_extraction (entries : List ZipEntry)
    (h : entries.length > MAX_FILES
      ∨ (entries.map (fun e => e.file_size)).sum > MAX_TOTAL_BYTES) :
    (safeExtractZip entries).1 = [] ∧ (safeExtractZip entries).2.isSome = true := by
  unfold safeExtractZip
  rcases h with h | h
  · simp [h]
  · by_cases h1 : entries.length > MAX_FILES
    · simp [h1]
    · simp [h1, h]

/-- C7 (witness): a one-entry archive whose single file exceeds the 50 MB
aggregate budget is rejected with nothing written. -/
theorem C7_witness :
    (safeExtractZip [⟨"a.py", 52428801, 0⟩]).1 = []
    ∧ (safeExtractZip [⟨"a.py", 52428801, 0⟩]).2.isSome = true :=
  C7_limits_before_extraction [⟨"a.py", 52428801, 0⟩] (Or.inr (by decide))

/-! ## C4 — path traversal -/

/-- C4 (counterexample): an archive whose second entry escapes the
destination is rejected, but its first entry has already been extracted to
disk, so it is not the case that nothing is extracted. -/
theorem C4_counterexample :
    (safeExtractZip [⟨"good.py", 1, 0⟩, ⟨"../evil.py", 1, 0⟩]).2
        = some ZipErr.invalidPath
    ∧ (safeExtractZip [⟨"good.py", 1, 0⟩, ⟨"../evil.py", 1, 0⟩]).1
        = ["good.py"] := by
  decide

theorem extractLoop_spec (l : List ZipEntry) (written : List String)
    (h : l.any (fun e => badPath e.filename) = true) :
    extractLoop l written =
      (written ++ ((l.takeWhile (fun e => !badPath e.filename)).filter
          (fun e => !isSymlinkEntry e)).map (fun e => e.filename),
        some ZipErr.invalidPath) := by
  induction l generalizing written with
  | nil => simp at h
  | cons e rest ih =>
    by_cases hb : badPath e.filename
    · simp [extractLoop, hb, List.takeWhile_cons]
    · have hrest : rest.any (fun e => badPath e.filename) = true := by
        simpa [hb] using h
      by_cases hs : isSymlinkEntry e
      · simp [extractLoop, hb, hs, List.takeWhile_cons, ih _ hrest]
      · simp [extractLoop, hb, hs, List.takeWhile_cons, ih _ hrest]

/-- C4 (amended): an archive within the count and size limits that
contains a traversal entry is rejected, and the files written to disk are
exactly the non-symlink entries strictly before the first offending
entry — nothing at or after it is extracted, but earlier entries are. -/
theorem C4_amended (entries : List ZipEntry)
    (h1 : entries.length ≤ MAX_FILES)
    (h2 : (entries.map (fun e => e.file_size)).sum ≤ MAX_TOTAL_BYTES)
    (h3 : entries.any (fun e => badPath e.filename) = true) :
    safeExtractZip entries =
      (((entries.takeWhile (fun e => !badPath e.filename)).filter
          (fun e => !isSymlinkEntry e)).map (fun e => e.filename),
        some ZipErr.invalidPath) := by
  unfold safeExtractZip
  rw [if_neg (by omega), if_neg (by omega)]
  simpa using extractLoop_spec entries [] h3

/-- C4 (witness for the amended claim): the two-entry archive again. -/
theorem C4_witness :
    safeExtractZip [⟨"good.py", 1, 0⟩, ⟨"../evil.py", 1, 0⟩]
      = (["good.py"], some ZipErr.invalidPath) :=
  C4_amended [⟨"good.py", 1, 0⟩, ⟨"../evil.py", 1, 0⟩]
    (by decide) (by decide) (by decide)

/-! ## C8 — edge id format -/

/-- C8 (counterexample): the single edge of the one-file scenario has id
`a.py->os`, which differs from the id format stated in the claim. -/
theorem C8_counterexample :
    (analyze_graph [⟨"a.py", some "import os"⟩]).edges
        = [⟨"a.py->os", "a.py", "os", "import", true⟩]
    ∧ ("a.py->os" : String) ≠ specEdgeId "a.py" "os" := by
  decide

/-- C8 (amended): every edge record's id is its source and target joined
by the two-character arrow `->`. -/
theorem C8_amended (files : List SrcFile) :
    ∀ e ∈ (analyze_graph files).edges, e.id = e.source ++ "->" ++ e.target := by
  intro e he
  unfold analyze_graph at he
  split at he
  · simp at he
  · obtain ⟨raw, _, rfl⟩ := List.mem_map.mp he
    rfl

/-- C8 (witness): the edge of the one-file scenario. -/
theorem C8_witness :
    (⟨"a.py->os", "a.py", "os", "import", true⟩ : REdge).id
      = "a.py" ++ "->" ++ "os" :=
  C8_amended [⟨"a.py", some "import os"⟩] _ (by decide)

/-! ## C10 — extractor totality -/

/-- C10: `extract_dependencies` is total — for every content and category
it returns a list; when reading raises (unreadable file), the inner body's
exception is swallowed and the dependencies accumulated before the raise
(none, as `open` comes first) are returned. -/
theorem C10_extractor_total (content? : Option String) (ftype : String) :
    ∃ deps, extract_dependencies content? ftype = some deps
      ∧ (content? = none →
          extract_dependencies_try content? ftype = Except.error PyErr.ioError
          ∧ deps = []) := by
  cases content? with
  | none => exact ⟨[], rfl, fun _ => ⟨rfl, rfl⟩⟩
  | some s => exact ⟨_, rfl, fun h => nomatch h⟩

/-- C10 (witness): instantiated at an unreadable python file. -/
theorem C10_witness :
    ∃ deps, extract_dependencies none "python" = some deps
      ∧ ((none : Option String) = none →
          extract_dependencies_try none "python" = Except.error PyErr.ioError
          ∧ deps = []) :=
  C10_extractor_total none "python"

/-! ## C9 — deep Python extractor -/

theorem leC_cons_cons (a b : Char) (as bs : List Char) :
    leC (a :: as) (b :: bs)
      = if a.toNat = b.toNat then leC as bs else decide (a.toNat < b.toNat) :=
  rfl

theorem leC_total : ∀ x y : List Char, leC x y = true ∨ leC y x = true := by
  intro x
  induction x with
  | nil => intro y; left; rfl
  | cons a as ih =>
    intro y
    cases y with
    | nil => right; rfl
    | cons b bs =>
      rw [leC_cons_cons, leC_cons_cons]
      by_cases h : a.toNat = b.toNat
      · rw [if_pos h, if_pos h.symm]
        exact ih bs
      · rw [if_neg h, if_neg (fun e => h e.symm)]
        rcases Nat.lt_or_ge a.toNat b.toNat with h1 | h1
        · left; exact decide_eq_true h1
        · right; exact decide_eq_true (by omega)

theorem leC_trans : ∀ x y z : List Char,
    leC x y = true → leC y z = true → leC x z = true := by
  intro x
  induction x with
  | nil => intro y z _ _; rfl
  | cons a as ih =>
    intro y z hxy hyz
    cases y with
    | nil => simp [leC] at hxy
    | cons b bs =>
      cases z with
      | nil => simp [leC] at hyz
      | cons c cs =>
        rw [leC_cons_cons] at hxy hyz ⊢
        by_cases hab : a.toNat = b.toNat <;> by_cases hbc : b.toNat = c.toNat
        · rw [if_pos hab] at hxy
          rw [if_pos hbc] at hyz
          rw [if_pos (hab.trans hbc)]
          exact ih bs cs hxy hyz
        · rw [if_neg hbc, decide_eq_true_eq] at hyz
          rw [if_neg (by omega)]
          exact decide_eq_true (by omega)
        · rw [if_neg hab, decide_eq_true_eq] at hxy
          rw [if_neg (by omega)]
          exact decide_eq_true (by omega)
        · rw [if_neg hab, decide_eq_true_eq] at hxy
          rw [if_neg hbc, decide_eq_true_eq] at hyz
          rw [if_neg (by omega)]
          exact decide_eq_true (by omega)

instance strLe.total : IsTotal String strLe :=
  ⟨fun a b => leC_total a.data b.data⟩

instance strLe.trans : IsTrans String strLe :=
  ⟨fun _ _ _ hab hbc => leC_trans _ _ _ hab hbc⟩

/-- C9: the deep AST-based extractor returns a duplicate-free list in
sorted (code-point lexicographic) order for every parsed file, and the
empty list for a file whose parse failed with a syntax error. -/
theorem C9_deep_extractor (parsed? : Option (List PyStmt)) (current_module : String) :
    (extract_imports parsed? current_module).Nodup
    ∧ List.Sorted strLe (extract_imports parsed? current_module)
    ∧ (parsed? = none → extract_imports parsed? current_module = []) := by
  cases parsed? with
  | none => exact ⟨List.nodup_nil, List.sorted_nil, fun _ => rfl⟩
  | some stmts =>
    refine ⟨?_, List.sorted_insertionSort strLe _, fun h => nomatch h⟩
    exact ((List.perm_insertionSort strLe _).nodup_iff).mpr (List.nodup_dedup _)

/-- C9 (witness): a syntactically bad file yields `[]`; a parsed tree with
a duplicated import and a nested relative import yields a duplicate-free
result. -/
theorem C9_witness :
    extract_imports none "backend.app" = []
    ∧ (extract_imports (some [PyStmt.imp ["sys", "os", "os"],
        PyStmt.other [PyStmt.impFrom (some "b") 1]]) "pkg.mod").Nodup :=
  ⟨(C9_deep_extractor none "backend.app").2.2 rfl,
   (C9_deep_extractor (some [PyStmt.imp ["sys", "os", "os"],
      PyStmt.other [PyStmt.impFrom (some "b") 1]]) "pkg.mod").1⟩

/-! ## C5 — cycle detection -/

theorem chainB_out (g : Graph) (first : String) :
    ∀ l : List String, chainB g first l = true →
      ∀ v ∈ l, ∃ w, hasEdge g v w = true := by
  intro l
  induction l with
  | nil => intro _ v hv; simp at hv
  | cons a t ih =>
    cases t with
    | nil =>
      intro h v hv
      rw [List.mem_singleton] at hv
      subst hv
      exact ⟨first, h⟩
    | cons b t2 =>
      intro h v hv
      rw [chainB, Bool.and_eq_true] at h
      rcases List.mem_cons.mp hv with rfl | hv2
      · exact ⟨b, h.1⟩
      · exact ih h.2 v hv2

theorem hasEdge_src_mem (g : Graph)
    (hE : ∀ e ∈ g.edges, e.1.1 ∈ nodeIds g) (u v : String)
    (h : hasEdge g u v = true) : u ∈ nodeIds g := by
  rw [hasEdge, List.any_eq_true] at h
  obtain ⟨e, he, heq⟩ := h
  have h1 : e.1 = (u, v) := beq_iff_eq.mp heq
  have h2 := hE e he
  rw [h1] at h2
  exact h2

theorem isCirc_nodup {g : Graph} {c : List String} (h : isCirc g c = true) :
    c.Nodup := by
  cases c with
  | nil => simp [isCirc] at h
  | cons v rest =>
    rw [isCirc, Bool.and_eq_true] at h
    exact of_decide_eq_true h.1

theorem isCirc_mem_src {g : Graph} {c : List String} (h : isCirc g c = true) :
    ∀ v ∈ c, ∃ w, hasEdge g v w = true := by
  cases c with
  | nil => simp [isCirc] at h
  | cons v rest =>
    rw [isCirc, Bool.and_eq_true] at h
    exact chainB_out g v _ h.2

theorem mem_circCandidates (g : Graph) (c : List String) (hnd : c.Nodup)
    (hsub : ∀ v ∈ c, v ∈ nodeIds g) : c ∈ circCandidates g := by
  have htsub : ((nodeIds g).dedup.filter (fun x => c.contains x)).Sublist
      (nodeIds g).dedup := List.filter_sublist _
  have htnd : ((nodeIds g).dedup.filter (fun x => c.contains x)).Nodup :=
    htsub.nodup (List.nodup_dedup _)
  have hperm : c.Perm ((nodeIds g).dedup.filter (fun x => c.contains x)) := by
    rw [List.perm_ext_iff_of_nodup hnd htnd]
    intro a
    constructor
    · intro ha
      exact List.mem_filter.mpr ⟨List.mem_dedup.mpr (hsub a ha),
        List.elem_iff.mpr ha⟩
    · intro ha
      exact List.elem_iff.mp (List.mem_filter.mp ha).2
  refine List.mem_flatMap.mpr ⟨_, List.mem_sublists.mpr htsub, ?_⟩
  exact List.mem_permutations'.mpr hperm

theorem mem_simpleCyclesModel (g : Graph)
    (hE : ∀ e ∈ g.edges, e.1.1 ∈ nodeIds g) (c : List String)
    (hc : isCirc g c = true) : c ∈ simpleCyclesModel g := by
  refine List.mem_filter.mpr ⟨?_, hc⟩
  refine mem_circCandidates g c (isCirc_nodup hc) ?_
  intro v hv
  obtain ⟨w, hw⟩ := isCirc_mem_src hc v hv
  exact hasEdge_src_mem g hE v w hw

theorem internalSub_edges_src (g : Graph) :
    ∀ e ∈ (internalSub g).edges, e.1.1 ∈ nodeIds (internalSub g) := by
  intro e he
  have := (List.mem_filter.mp he).2
  rw [Bool.and_eq_true] at this
  obtain ⟨a, ha, haeq⟩ := List.contains_iff_exists_mem_beq.mp this.1
  rw [beq_iff_eq.mp haeq]
  exact ha

/-- C5: cycle enumeration runs over the subgraph induced by the
non-external nodes, yields only elementary circuits whose nodes are
non-external nodes of the graph, never returns more than 25 cycles, and
returns the empty list exactly when that subgraph has no elementary
circuit. -/
theorem C5_cycle_detection (g : Graph) :
    (findCycles g).length ≤ 25
    ∧ (∀ c ∈ findCycles g, isCirc (internalSub g) c = true)
    ∧ (∀ c ∈ findCycles g, ∀ v ∈ c, ∃ a, (v, a) ∈ g.nodes ∧ a.type ≠ "external")
    ∧ (AcyclicG (internalSub g) ↔ findCycles g = []) := by
  have hmem : ∀ c ∈ findCycles g, isCirc (internalSub g) c = true := by
    intro c hc
    exact List.of_mem_filter (List.mem_of_mem_take hc)
  refine ⟨List.length_take_le _ _, hmem, ?_, ?_, ?_⟩
  · intro c hc v hv
    obtain ⟨w, hw⟩ := isCirc_mem_src (hmem c hc) v hv
    have hv2 : v ∈ nodeIds (internalSub g) :=
      hasEdge_src_mem _ (internalSub_edges_src g) v w hw
    obtain ⟨p, hp, hpv⟩ := List.mem_map.mp hv2
    have hp2 := List.mem_filter.mp hp
    refine ⟨p.2, ?_, ?_⟩
    · rw [← hpv]
      simpa using hp2.1
    · exact bne_iff_ne.mp hp2.2
  · intro hA
    have : simpleCyclesModel (internalSub g) = [] := by
      rw [simpleCyclesModel, List.filter_eq_nil_iff]
      intro c _
      simp [hA c]
    rw [findCycles, this]
    rfl
  · intro h0 c
    by_contra hc
    have hc2 : isCirc (internalSub g) c = true := by
      cases h : isCirc (internalSub g) c
      · exact absurd h hc
      · rfl
    have hmem2 := mem_simpleCyclesModel (internalSub g)
      (internalSub_edges_src g) c hc2
    have : simpleCyclesModel (internalSub g) = [] := by
      have := (List.take_eq_nil_iff).mp h0
      rcases this with h25 | hnil
      · exact absurd h25 (by norm_num)
      · exact hnil
    rw [this] at hmem2
    simp at hmem2

/-- C5 (witness): on a two-node graph with edges both ways, the returned
sequence contains the elementary circuit through both nodes. -/
theorem C5_witness :
    isCirc (internalSub (Graph.mk
        [("a.py", ⟨"python", "a.py"⟩), ("b.py", ⟨"python", "b.py"⟩)]
        [(("a.py", "b.py"), ⟨"import", false⟩),
         (("b.py", "a.py"), ⟨"import", false⟩)]))
      ["a.py", "b.py"] = true :=
  (C5_cycle_detection (Graph.mk
      [("a.py", ⟨"python", "a.py"⟩), ("b.py", ⟨"python", "b.py"⟩)]
      [(("a.py", "b.py"), ⟨"import", false⟩),
       (("b.py", "a.py"), ⟨"import", false⟩)])).2.1
    ["a.py", "b.py"] (by decide)

/-! ## C6 — helper lemmas about the node and edge stores -/

theorem addNode_edges (g : Graph) (id : String) (a : NodeAttr) :
    (addNode g id a).edges = g.edges := by
  unfold addNode
  split <;> rfl

theorem addEdge_nodes (g : Graph) (k : String × String) (a : EdgeAttr) :
    (addEdge g k a).nodes = g.nodes := by
  unfold addEdge
  split <;> rfl

theorem mem_addNode_elim {g : Graph} {id : String} {a : NodeAttr}
    {p : String × NodeAttr} (h : p ∈ (addNode g id a).nodes) :
    p = (id, a) ∨ (p ∈ g.nodes ∧ p.1 ≠ id) := by
  unfold addNode at h
  split at h
  · obtain ⟨q, hq, hfq⟩ := List.mem_map.mp h
    by_cases hqid : (q.1 == id) = true
    · left
      rw [if_pos hqid] at hfq
      exact hfq.symm
    · right
      rw [if_neg hqid] at hfq
      rw [← hfq]
      exact ⟨hq, fun e => hqid (beq_iff_eq.mpr e)⟩
  · rcases List.mem_append.mp h with h1 | h1
    · right
      refine ⟨h1, fun he => ?_⟩
      rename_i hany
      exact hany (List.any_eq_true.mpr ⟨p, h1, beq_iff_eq.mpr he⟩)
    · left
      simpa using h1

theorem mem_addNode_new {g : Graph} {id : String} {a : NodeAttr} :
    (id, a) ∈ (addNode g id a).nodes := by
  unfold addNode
  split
  · rename_i hany
    obtain ⟨q, hq, hqid⟩ := List.any_eq_true.mp hany
    exact List.mem_map.mpr ⟨q, hq, by rw [if_pos hqid]⟩
  · exact List.mem_append.mpr (Or.inr (by simp))

theorem mem_addNode_old {g : Graph} {id : String} {a : NodeAttr}
    {p : String × NodeAttr} (hp : p ∈ g.nodes) (hne : p.1 ≠ id) :
    p ∈ (addNode g id a).nodes := by
  unfold addNode
  split
  · exact List.mem_map.mpr ⟨p, hp, by rw [if_neg (fun h => hne (beq_iff_eq.mp h))]⟩
  · exact List.mem_append.mpr (Or.inl hp)

theorem nodeIds_addNode_nodup {g : Graph} {id : String} {a : NodeAttr}
    (h : (nodeIds g).Nodup) : (nodeIds (addNode g id a)).Nodup := by
  unfold nodeIds at h ⊢
  unfold addNode
  split
  · dsimp only
    rw [List.map_map]
    have hfn : (Prod.fst ∘ fun p => if p.1 == id then (id, a) else p)
        = (Prod.fst : String × NodeAttr → String) := by
      funext q
      by_cases hq : (q.1 == id) = true
      · simp only [Function.comp_apply, if_pos hq]
        exact (beq_iff_eq.mp hq).symm
      · simp only [Function.comp_apply, if_neg hq]
    rw [hfn]
    exact h
  · rename_i hany
    have hid : id ∉ g.nodes.map Prod.fst := by
      intro hmem
      obtain ⟨q, hq, hq1⟩ := List.mem_map.mp hmem
      exact hany (List.any_eq_true.mpr ⟨q, hq, beq_iff_eq.mpr hq1⟩)
    dsimp only
    rw [List.map_append, List.nodup_append]
    exact ⟨h, by simp, by simpa using hid⟩

theorem mem_addEdge_elim {g : Graph} {k : String × String} {a : EdgeAttr}
    {e : (String × String) × EdgeAttr} (h : e ∈ (addEdge g k a).edges) :
    e = (k, a) ∨ (e ∈ g.edges ∧ e.1 ≠ k) := by
  unfold addEdge at h
  split at h
  · obtain ⟨q, hq, hfq⟩ := List.mem_map.mp h
    by_cases hqk : (q.1 == k) = true
    · left
      rw [if_pos hqk] at hfq
      exact hfq.symm
    · right
      rw [if_neg hqk] at hfq
      rw [← hfq]
      exact ⟨hq, fun eq2 => hqk (beq_iff_eq.mpr eq2)⟩
  · rcases List.mem_append.mp h with h1 | h1
    · right
      refine ⟨h1, fun he => ?_⟩
      rename_i hany
      exact hany (List.any_eq_true.mpr ⟨e, h1, beq_iff_eq.mpr he⟩)
    · left
      simpa using h1

theorem mem_insertSet {l : List String} {x y : String} :
    y ∈ insertSet l x ↔ y ∈ l ∨ y = x := by
  unfold insertSet
  split
  · rename_i hc
    constructor
    · exact Or.inl
    · rintro (h | rfl)
      · exact h
      · exact List.elem_iff.mp hc
  · simp [List.mem_append]

theorem insertSet_nodup {l : List String} {x : String} (h : l.Nodup) :
    (insertSet l x).Nodup := by
  unfold insertSet
  split
  · exact h
  · rename_i hc
    rw [List.nodup_append]
    refine ⟨h, List.nodup_singleton x, ?_⟩
    simpa using fun hx => hc (List.elem_iff.mpr hx)

/-! ## C6 — type-table facts -/

theorem get_file_type_ne_external (p : String) : get_file_type p ≠ "external" := by
  unfold get_file_type
  cases hf : FILE_TYPES.find? (fun kv => kv.2.contains (extOf p)) with
  | none => decide
  | some kv =>
    have hm := List.mem_of_find?_eq_some hf
    fin_cases hm <;> decide

theorem dropWhile_ne_dot_head {l : List Char} {x : Char} {t : List Char}
    (h : l.dropWhile (fun c => c ≠ '.') = x :: t) : x = '.' ∧ x ∈ l := by
  induction l with
  | nil => simp at h
  | cons c cs ih =>
    rw [List.dropWhile_cons] at h
    split at h
    · obtain ⟨h1, h2⟩ := ih h
      exact ⟨h1, List.mem_cons_of_mem _ h2⟩
    · rename_i hc
      have hcd : c = '.' := by simpa using hc
      injection h with h1 _
      exact ⟨h1.symm.trans hcd, h1 ▸ List.mem_cons_self _ _⟩

theorem dot_mem_of_splitext_ne {b : List Char} (h : splitextExtL b ≠ []) :
    '.' ∈ b := by
  unfold splitextExtL at h
  cases hd : b.reverse.dropWhile (fun c => c ≠ '.') with
  | nil => rw [hd] at h; exact absurd rfl h
  | cons x pre =>
    obtain ⟨hx, hmem⟩ := dropWhile_ne_dot_head hd
    rw [hx] at hmem
    exact List.mem_reverse.mp hmem

theorem noDot_false_of_recognized (p : String) (h : get_file_type p ≠ "unknown") :
    noDot p = false := by
  unfold get_file_type at h
  cases hf : FILE_TYPES.find? (fun kv => kv.2.contains (extOf p)) with
  | none => rw [hf] at h; exact absurd rfl h
  | some kv =>
    have hpred := List.find?_some hf
    have hm := List.mem_of_find?_eq_some hf
    have hne : extOf p ≠ "" := by
      obtain ⟨a, ha, haeq⟩ := List.contains_iff_exists_mem_beq.mp hpred
      have hall : ∀ kv2 ∈ FILE_TYPES, ∀ x ∈ kv2.2, x ≠ "" := by decide
      rw [beq_iff_eq.mp haeq]
      exact hall kv hm a ha
    have h1 : splitextExtL (basenameL p.data) ≠ [] := by
      intro h0
      apply hne
      unfold extOf
      rw [h0]
      rfl
    have h2 : '.' ∈ basenameL p.data := dot_mem_of_splitext_ne h1
    have h3 : '.' ∈ p.data := by
      unfold basenameL at h2
      rw [List.mem_reverse] at h2
      exact List.mem_reverse.mp ((List.takeWhile_sublist _).subset h2)
    cases hA : noDot p with
    | false => rfl
    | true =>
      unfold noDot at hA
      rw [List.all_eq_true] at hA
      have := hA '.' h3
      simp at this

theorem noDot_truncName (dep : String) : noDot (truncName dep) = true := by
  unfold noDot truncName
  rw [List.all_eq_true]
  intro c hc
  exact @List.mem_takeWhile_imp Char (fun c => decide (c ≠ '.'))
    (basenameL dep.data) c hc

/-! ## C6 — the graph-building invariant -/

/-- The invariant of the graph-building loop that C6 rests on: node keys
are unique; a node is external-typed exactly when its id is dot-free; an
edge carries `external = true` exactly when its target id is dot-free;
every edge target is a registered node; and `external_nodes` is the
duplicate-free set of external-typed node ids. -/
structure GInv (g : Graph) (ext : List String) : Prop where
  keysNd : (nodeIds g).Nodup
  nodeTy : ∀ p ∈ g.nodes, (p.2.type = "external" ↔ noDot p.1 = true)
  edgeTy : ∀ e ∈ g.edges, (e.2.external = true ↔ noDot e.1.2 = true)
  edgeTgt : ∀ e ∈ g.edges, ∃ a, (e.1.2, a) ∈ g.nodes
  extIff : ∀ id : String, (id ∈ ext ↔ ∃ a, (id, a) ∈ g.nodes ∧ a.type = "external")
  extNd : ext.Nodup

/-- Shared part of node insertion: edges are untouched, edge targets stay
registered. -/
theorem GInv_addNode_edges {g : Graph} (id : String) (attr : NodeAttr)
    (hTgt : ∀ e ∈ g.edges, ∃ a, (e.1.2, a) ∈ g.nodes) :
    ∀ e ∈ (addNode g id attr).edges, ∃ a, (e.1.2, a) ∈ (addNode g id attr).nodes := by
  intro e he
  rw [addNode_edges] at he
  obtain ⟨a, ha⟩ := hTgt e he
  by_cases hk : e.1.2 = id
  · exact ⟨attr, hk ▸ mem_addNode_new⟩
  · exact ⟨a, mem_addNode_old ha hk⟩

/-- Registering a non-external node (a discovered file, whose path always
contains a dot) preserves the invariant with `external_nodes` unchanged. -/
theorem GInv_addNode_nonext {g : Graph} {ext : List String} (h : GInv g ext)
    (id : String) (attr : NodeAttr)
    (hattrTy : attr.type ≠ "external") (hdot : noDot id = false) :
    GInv (addNode g id attr) ext := by
  refine ⟨nodeIds_addNode_nodup h.keysNd, ?_,
    fun e he => h.edgeTy e (by rwa [addNode_edges] at he),
    GInv_addNode_edges id attr h.edgeTgt, ?_, h.extNd⟩
  · intro p hp
    rcases mem_addNode_elim hp with rfl | ⟨hold, _⟩
    · exact iff_of_false hattrTy (by simp [hdot])
    · exact h.nodeTy p hold
  · intro nid
    rw [h.extIff nid]
    constructor
    · rintro ⟨a, ha, hext⟩
      by_cases hk : nid = id
      · exfalso
        have := (h.nodeTy (nid, a) ha).mp hext
        rw [hk, hdot] at this
        exact Bool.false_ne_true this
      · exact ⟨a, mem_addNode_old ha hk, hext⟩
    · rintro ⟨a, ha, hext⟩
      rcases mem_addNode_elim ha with heq | ⟨hold, _⟩
      · exfalso
        have h2 : a = attr := congrArg Prod.snd heq
        exact hattrTy (h2 ▸ hext)
      · exact ⟨a, hold, hext⟩

/-- Registering an external node (dot-free derived name) preserves the
invariant with the name inserted into `external_nodes`. -/
theorem GInv_addNode_external {g : Graph} {ext : List String} (h : GInv g ext)
    (dn : String) (hdot : noDot dn = true) :
    GInv (addNode g dn ⟨"external", dn⟩) (insertSet ext dn) := by
  refine ⟨nodeIds_addNode_nodup h.keysNd, ?_,
    fun e he => h.edgeTy e (by rwa [addNode_edges] at he),
    GInv_addNode_edges dn ⟨"external", dn⟩ h.edgeTgt, ?_, insertSet_nodup h.extNd⟩
  · intro p hp
    rcases mem_addNode_elim hp with rfl | ⟨hold, _⟩
    · exact iff_of_true rfl hdot
    · exact h.nodeTy p hold
  · intro nid
    rw [mem_insertSet]
    constructor
    · rintro (hmem | rfl)
      · obtain ⟨a, ha, hext⟩ := (h.extIff nid).mp hmem
        by_cases hk : nid = dn
        · exact ⟨⟨"external", dn⟩, hk ▸ mem_addNode_new, rfl⟩
        · exact ⟨a, mem_addNode_old ha hk, hext⟩
      · exact ⟨⟨"external", nid⟩, mem_addNode_new, rfl⟩
    · rintro ⟨a, ha, hext⟩
      rcases mem_addNode_elim ha with heq | ⟨hold, _⟩
      · exact Or.inr (congrArg Prod.fst heq)
      · exact Or.inl ((h.extIff nid).mpr ⟨a, hold, hext⟩)

/-- Adding an edge whose `external` flag agrees with the dot-freeness of
its registered target preserves the invariant. -/
theorem GInv_addEdge {g : Graph} {ext : List String} (h : GInv g ext)
    (rel tgt : String) (bext : Bool)
    (hb : bext = true ↔ noDot tgt = true)
    (htgt : ∃ a, (tgt, a) ∈ g.nodes) :
    GInv (addEdge g (rel, tgt) ⟨"import", bext⟩) ext := by
  refine ⟨?_, ?_, ?_, ?_, ?_, h.extNd⟩
  · rw [show nodeIds (addEdge g (rel, tgt) ⟨"import", bext⟩) = nodeIds g from
      congrArg (List.map Prod.fst) (addEdge_nodes g _ _)]
    exact h.keysNd
  · intro p hp
    rw [addEdge_nodes] at hp
    exact h.nodeTy p hp
  · intro e he
    rcases mem_addEdge_elim he with rfl | ⟨hold, _⟩
    · exact hb
    · exact h.edgeTy e hold
  · intro e he
    rw [addEdge_nodes]
    rcases mem_addEdge_elim he with rfl | ⟨hold, _⟩
    · exact htgt
    · exact h.edgeTgt e hold
  · intro nid
    rw [h.extIff nid]
    constructor <;>
      · rintro ⟨a, ha, hext⟩
        refine ⟨a, ?_, hext⟩
        first
          | rwa [addEdge_nodes]
          | rwa [addEdge_nodes] at ha

/-! ## C6 — invariant preservation along the pipeline -/

theorem GInv_init : GInv emptyGraph [] :=
  ⟨List.nodup_nil, by simp [emptyGraph], by simp [emptyGraph],
   by simp [emptyGraph], fun id => by simp [emptyGraph], List.nodup_nil⟩

theorem GInv_processDep (files : List SrcFile)
    (hrec : ∀ f ∈ files, get_file_type f.path ≠ "unknown")
    (rel : String) (dep : String) (st : AState)
    (h : GInv st.g st.external_nodes) :
    GInv (processDep files rel st dep).g
      (processDep files rel st dep).external_nodes := by
  unfold processDep
  by_cases hdep : dep = ""
  · rw [if_pos hdep]
    exact h
  · rw [if_neg hdep]
    cases hres : resolveDep dep (files.map fun f => f.path) with
    | some cf =>
      have hcf : cf ∈ files.map (fun f => f.path) := by
        unfold resolveDep at hres
        split at hres
        · exact List.mem_of_find?_eq_some hres
        · exact absurd hres (by simp)
      have hdot : noDot cf = false := by
        obtain ⟨f, hf, rfl⟩ := List.mem_map.mp hcf
        exact noDot_false_of_recognized _ (hrec f hf)
      exact GInv_addEdge
        (GInv_addNode_nonext h cf ⟨get_file_type cf, basename cf⟩
          (get_file_type_ne_external cf) hdot)
        rel cf false (iff_of_false (by simp) (by simp [hdot]))
        ⟨_, mem_addNode_new⟩
    | none =>
      exact GInv_addEdge
        (GInv_addNode_external h (truncName dep) (noDot_truncName dep))
        rel (truncName dep) true (iff_of_true rfl (noDot_truncName dep))
        ⟨_, mem_addNode_new⟩

theorem foldl_GInv_deps (files : List SrcFile)
    (hrec : ∀ f ∈ files, get_file_type f.path ≠ "unknown")
    (rel : String) (deps : List String) :
    ∀ st : AState, GInv st.g st.external_nodes →
      GInv (deps.foldl (processDep files rel) st).g
        (deps.foldl (processDep files rel) st).external_nodes := by
  induction deps with
  | nil => intro st h; exact h
  | cons d rest ih =>
    intro st h
    rw [List.foldl_cons]
    exact ih _ (GInv_processDep files hrec rel d st h)

theorem GInv_processFile (files : List SrcFile)
    (hrec : ∀ f ∈ files, get_file_type f.path ≠ "unknown")
    (st : AState) (f : SrcFile) (hf : f ∈ files)
    (h : GInv st.g st.external_nodes) :
    GInv (processFile files st f).g (processFile files st f).external_nodes := by
  unfold processFile
  dsimp only
  have h1 : GInv (addNode st.g f.path ⟨get_file_type f.path, basename f.path⟩)
      st.external_nodes :=
    GInv_addNode_nonext h f.path ⟨get_file_type f.path, basename f.path⟩
      (get_file_type_ne_external f.path)
      (noDot_false_of_recognized f.path (hrec f hf))
  cases hx : extract_dependencies f.content? (get_file_type f.path) with
  | none => exact h1
  | some deps => exact foldl_GInv_deps files hrec f.path deps _ h1

theorem foldl_GInv_files (files : List SrcFile)
    (hrec : ∀ f ∈ files, get_file_type f.path ≠ "unknown") :
    ∀ (l : List SrcFile), (∀ f ∈ l, f ∈ files) →
      ∀ st : AState, GInv st.g st.external_nodes →
        GInv (l.foldl (processFile files) st).g
          (l.foldl (processFile files) st).external_nodes := by
  intro l
  induction l with
  | nil => intro _ st h; exact h
  | cons f fs ih =>
    intro hsub st h
    rw [List.foldl_cons]
    exact ih (fun x hx => hsub x (List.mem_cons_of_mem f hx)) _
      (GInv_processFile files hrec st f (hsub f (List.mem_cons_self f fs)) h)

/-- C6: in every analysis result over recognized files, an edge's
`external` flag holds exactly when its target is an external-typed node,
and `external_pkgs` counts the distinct external node ids of the graph. -/
theorem C6_external_flag_and_count (files : List SrcFile)
    (hrec : ∀ f ∈ files, get_file_type f.path ≠ "unknown") :
    (∀ e ∈ (analyze_graph files).edges,
      (e.external = true ↔ ∃ n ∈ (analyze_graph files).nodes,
        n.id = e.target ∧ n.type = "external"))
    ∧ (analyze_graph files).meta.external_pkgs
        = (((analyze_graph files).nodes.filter
            (fun n => n.type == "external")).map (fun n => n.id)).dedup.length := by
  unfold analyze_graph
  split
  · refine ⟨?_, rfl⟩
    intro e he
    simp at he
  · have hInv := foldl_GInv_files files hrec files (fun f hf => hf)
      ⟨emptyGraph, [], [], 0⟩ GInv_init
    set st := files.foldl (processFile files) ⟨emptyGraph, [], [], 0⟩ with hst
    constructor
    · intro e he
      dsimp only at he ⊢
      obtain ⟨re, hre, rfl⟩ := List.mem_map.mp he
      constructor
      · intro hext
        have hdot : noDot re.1.2 = true := (hInv.edgeTy re hre).mp hext
        obtain ⟨a, ha⟩ := hInv.edgeTgt re hre
        have haty : a.type = "external" := (hInv.nodeTy (re.1.2, a) ha).mpr hdot
        exact ⟨⟨re.1.2, a.label, a.type⟩,
          List.mem_map.mpr ⟨(re.1.2, a), ha, rfl⟩, rfl, haty⟩
      · rintro ⟨n, hn, hid, hty⟩
        obtain ⟨p, hp, rfl⟩ := List.mem_map.mp hn
        have hdot : noDot p.1 = true := (hInv.nodeTy p hp).mp hty
        have hid2 : p.1 = re.1.2 := hid
        rw [hid2] at hdot
        exact (hInv.edgeTy re hre).mpr hdot
    · dsimp only
      have hcomm : ((st.g.nodes.map
            (fun p => (⟨p.1, p.2.label, p.2.type⟩ : RNode))).filter
            (fun n => n.type == "external")).map (fun n => n.id)
          = (st.g.nodes.filter (fun p => p.2.type == "external")).map Prod.fst := by
        rw [List.filter_map, List.map_map]
        rfl
      rw [hcomm]
      have hnd : ((st.g.nodes.filter
          (fun p => p.2.type == "external")).map Prod.fst).Nodup :=
        ((List.filter_sublist _).map Prod.fst).nodup hInv.keysNd
      rw [List.dedup_eq_self.mpr hnd]
      have hperm : st.external_nodes.Perm
          ((st.g.nodes.filter (fun p => p.2.type == "external")).map Prod.fst) := by
        rw [List.perm_ext_iff_of_nodup hInv.extNd hnd]
        intro a
        rw [hInv.extIff a]
        constructor
        · rintro ⟨attr, ha, hext⟩
          exact List.mem_map.mpr
            ⟨(a, attr), List.mem_filter.mpr ⟨ha, beq_iff_eq.mpr hext⟩, rfl⟩
        · intro hmem
          obtain ⟨p, hp, hpa⟩ := List.mem_map.mp hmem
          have hfp := List.mem_filter.mp hp
          refine ⟨p.2, ?_, beq_iff_eq.mp hfp.2⟩
          rw [← hpa]
          exact hfp.1
      exact hperm.length_eq

/-- C6 (witness): the one-file scenario importing `os`. -/
theorem C6_witness :
    (analyze_graph [⟨"a.py", some "import os"⟩]).meta.external_pkgs
      = (((analyze_graph [⟨"a.py", some "import os"⟩]).nodes.filter
          (fun n => n.type == "external")).map (fun n => n.id)).dedup.length :=
  (C6_external_flag_and_count [⟨"a.py", some "import os"⟩] (by decide)).2

end DepViz
